import Mathlib

/-!
Verification of the `dbgroup-nagoya-u/mwcas-benchmark` repository.

This file shallowly embeds the single-threaded (sequential, quiescent)
semantics of the repository's lock-free queues, worker operation
generation, worker MwCAS execution, and the benchmark driver's
aggregation and configuration code, and proves or refutes the frozen
claims about them.

Conventions of the embedding:
* machine integers (`size_t`, `uint64_t`) are `Nat`, with an explicit
  `% 2 ^ 64` where overflow matters;
* heap nodes live in an addressable store `Nat → Node α`; allocation
  hands out the next fresh index `nextId`;
* the in-memory MwCAS primitive (`MwCASDescriptor` of the external
  organization library, referenced by the sources but not part of this
  repository's tree) is modelled from the spec, section 4.3: in a
  single-threaded execution a multi-word CAS atomically checks that all
  target words hold their expected values and, if so, writes all desired
  values; `MwCASDescriptor::Read` returns the current (plain) value;
* a lock-free retry loop whose failed iteration leaves the state
  unchanged repeats identically in a single-threaded execution, so it
  terminates exactly when its first attempt succeeds; such loops are
  embedded as `Option`-valued single attempts;
* `double` arithmetic of the driver is embedded over `ℚ` (exact
  arithmetic at the resolution the claims speak about).
-/

/-! ## Queue node heaps (src/src/queue/queue_mwcas.hpp, queue_cas.hpp,
src/src/container/queue_mwcas.hpp)

A queue node is `struct Node { const T elem; Node *next; }`.  The store
maps node ids to nodes; `none` is the null pointer. -/

structure Node (α : Type) where
  elem : α
  next : Option Nat
  deriving DecidableEq

/-- Queue state: node store, next fresh node id, and the `front_` and
`back_` registers of the queue object (both hold node pointers). -/
structure QState (α : Type) where
  heap : Nat → Node α
  nextId : Nat
  front : Nat
  back : Nat

/-- Initial state of both queue classes: a single default-constructed
sentinel node, with `front_` and `back_` pointing at it
(`Node* back_{new Node{}}; std::atomic<Node*> front_{back_};`). -/
def QState.init (α : Type) [Inhabited α] : QState α :=
  { heap := fun _ => ⟨default, none⟩, nextId := 1, front := 0, back := 0 }

namespace QueueMwCAS

/-- `QueueMwCAS::push` (src/src/queue/queue_mwcas.hpp, lines 70-87).

A fresh node `{x, nullptr}` is allocated, then the loop issues
`MwCAS [(&back_, back, new_node), (&back->next, nullptr, new_node)]`
with `back = MwCASDescriptor::Read(&back_)`.  Modelled from the spec,
section 4.3: the MwCAS succeeds iff every target holds its expected
value, and then installs all desired values.  Single-threaded, the
expected check on `back_` itself always holds (the value was just
read), so only `back->next == nullptr` decides; a failed attempt
leaves the state unchanged and the retry loop would repeat forever,
hence the `Option` result. -/
def push {α : Type} (x : α) (s : QState α) : Option (QState α) :=
  let nid := s.nextId
  let heap1 := fun i => if i = nid then ({ elem := x, next := none } : Node α) else s.heap i
  if (heap1 s.back).next = none then
    some { heap := fun i => if i = s.back then { heap1 s.back with next := some nid } else heap1 i,
           nextId := nid + 1, front := s.front, back := nid }
  else
    none

/-- `QueueMwCAS::pop` (src/src/queue/queue_mwcas.hpp, lines 89-106).

`front = front_.load(); new_front = MwCASDescriptor::Read(&front->next);`
if `new_front == nullptr` return `nullopt`; otherwise the single-word
CAS on `front_` succeeds in a single-threaded execution (the expected
value was just loaded), the old front is retired to the GC (which does
not change the logical node store) and `new_front->elem` is returned. -/
def pop {α : Type} (s : QState α) : Option α × QState α :=
  match (s.heap s.front).next with
  | none => (none, s)
  | some nf => (some (s.heap nf).elem, { s with front := nf })

/-- Pushing a whole list, left to right (`none` if some push's retry
loop would never terminate). -/
def pushAll {α : Type} (l : List α) (s : QState α) : Option (QState α) :=
  l.foldlM (fun s' x => push x s') s

/-- Popping `k` times, collecting the returned optionals. -/
def popAll {α : Type} : Nat → QState α → List (Option α)
  | 0, _ => []
  | k + 1, s => (pop s).1 :: popAll k (pop s).2

end QueueMwCAS

namespace QueueCAS

/-- `QueueCAS::pop` (src/src/queue/queue_cas.hpp, lines 92-107).

`front = front_.load(); new_front = front->next.load();` if
`new_front == nullptr` return `nullopt`; otherwise the CAS on `front_`
succeeds single-threaded, the old front is retired and
`new_front->elem` returned. -/
def pop {α : Type} (s : QState α) : Option α × QState α :=
  match (s.heap s.front).next with
  | none => (none, s)
  | some nf => (some (s.heap nf).elem, { s with front := nf })

end QueueCAS

/-! ## The container-directory MwCAS queue
(src/src/container/queue_mwcas.hpp, first revision: `front_`/`back_`
are plain `Node*` fields, `IsValid` walks `next` to `nullptr`). -/

namespace ContainerQueueMwCAS

/-- `QueueMwCAS::push` of src/src/container/queue_mwcas.hpp: identical
single-threaded transition to the queue-directory variant
(`MwCAS [(&back_, tail, new), (&tail->next, nullptr, new)]`). -/
def push {α : Type} (x : α) (s : QState α) : Option (QState α) :=
  let nid := s.nextId
  let heap1 := fun i => if i = nid then ({ elem := x, next := none } : Node α) else s.heap i
  if (heap1 s.back).next = none then
    some { heap := fun i => if i = s.back then { heap1 s.back with next := some nid } else heap1 i,
           nextId := nid + 1, front := s.front, back := nid }
  else
    none

/-- `QueueMwCAS::pop` of src/src/container/queue_mwcas.hpp:
`dummy = Read(&front_); head = Read(&dummy->next);` if `head == nullptr`
return; otherwise `MwCAS [(&front_, dummy, head)]` succeeds
single-threaded and the dummy is retired. -/
def pop {α : Type} (s : QState α) : QState α :=
  match (s.heap s.front).next with
  | none => s
  | some head => { s with front := head }

/-- The loop of `QueueMwCAS::IsValid`
(src/src/container/queue_mwcas.hpp, lines 144-156):
`prev = front_; cur = prev->next; while (cur != nullptr) { prev = cur;
cur = cur->next; }` — returns the final `prev`, or `none` when the given
fuel does not suffice (the walk of the C++ code is unbounded). -/
def IsValidAux {α : Type} (h : Nat → Node α) : Nat → Nat → Option Nat
  | fuel, prev =>
    match (h prev).next with
    | none => some prev
    | some c =>
      match fuel with
      | 0 => none
      | f + 1 => IsValidAux h f c

/-- `QueueMwCAS::IsValid` (src/src/container/queue_mwcas.hpp, lines
144-156): the walk from `front_` terminates (within `fuel` steps) at a
node whose `next` is `nullptr`, and that node is `back_`. -/
def IsValid {α : Type} (s : QState α) (fuel : Nat) : Bool :=
  IsValidAux s.heap fuel s.front = some s.back

/-- One quiescent queue operation. -/
inductive QOp (α : Type) where
  | push (x : α)
  | pop

/-- Run a list of operations from a state ( `none` when a push's retry
loop would never terminate). -/
def runOps {α : Type} : List (QOp α) → QState α → Option (QState α)
  | [], s => some s
  | QOp.push x :: ops, s => (push x s).bind (runOps ops)
  | QOp.pop :: ops, s => runOps ops (pop s)

end ContainerQueueMwCAS

/-! ## Representation invariant for the node heaps

`Chain h a l b` says: starting at node `a`, following `next` links
visits exactly the nodes of `l` and stops at `b`, whose `next` is null.
-/

inductive Chain {α : Type} (h : Nat → Node α) : Nat → List Nat → Nat → Prop where
  | last : ∀ {n : Nat}, (h n).next = none → Chain h n [] n
  | step : ∀ {a b : Nat} {l : List Nat} {c : Nat},
      (h a).next = some b → Chain h b l c → Chain h a (b :: l) c

/-- Abstraction relation: the queue state represents the element list
`xs` (front sentinel excluded), with every reachable node id below the
allocation watermark. -/
def QueueRep {α : Type} (s : QState α) (xs : List α) : Prop :=
  ∃ ids : List Nat,
    Chain s.heap s.front ids s.back ∧
    xs = ids.map (fun i => (s.heap i).elem) ∧
    s.front < s.nextId ∧ ∀ i ∈ ids, i < s.nextId

theorem Chain.back_next_none {α : Type} {h : Nat → Node α} {f : Nat} {ids : List Nat}
    {b : Nat} (hc : Chain h f ids b) : (h b).next = none := by
  induction hc with
  | last hn => exact hn
  | step _ _ ih => exact ih

theorem Chain.back_mem {α : Type} {h : Nat → Node α} {f : Nat} {ids : List Nat}
    {b : Nat} (hc : Chain h f ids b) : b = f ∨ b ∈ ids := by
  induction hc with
  | last _ => exact Or.inl rfl
  | step _ _ ih =>
    rcases ih with h' | h'
    · exact Or.inr (by simp [h'])
    · exact Or.inr (List.mem_cons_of_mem _ h')

/-- A chain is insensitive to heap changes outside its nodes, provided
the `next` links along it are preserved. -/
theorem Chain.congr {α : Type} {h h' : Nat → Node α} {f : Nat} {ids : List Nat}
    {b : Nat} (hc : Chain h f ids b)
    (hh : ∀ i, i = f ∨ i ∈ ids → (h' i).next = (h i).next) :
    Chain h' f ids b := by
  induction hc with
  | last hn => exact Chain.last (by rw [hh _ (Or.inl rfl)]; exact hn)
  | step ha hc' ih =>
    refine Chain.step (by rw [hh _ (Or.inl rfl)]; exact ha) (ih ?_)
    intro i hi
    rcases hi with hi | hi
    · exact hh i (Or.inr (by simp [hi]))
    · exact hh i (Or.inr (List.mem_cons_of_mem _ hi))


/-- Inverting an empty chain. -/
theorem Chain.nil_next {α : Type} {h : Nat → Node α} {f b : Nat}
    (hc : Chain h f [] b) : (h f).next = none := by
  cases hc with
  | last hn => exact hn

/-- Inverting a non-empty chain. -/
theorem Chain.cons_next {α : Type} {h : Nat → Node α} {a i : Nat} {l : List Nat}
    {c : Nat} (hc : Chain h a (i :: l) c) : (h a).next = some i ∧ Chain h i l c := by
  cases hc with
  | step ha hc' => exact ⟨ha, hc'⟩

/-- Appending a fresh node at the back extends a chain. -/
theorem Chain.snoc {α : Type} {h h' : Nat → Node α} {b n : Nat} :
    ∀ {ids : List Nat} {f : Nat}, Chain h f ids b →
    (∀ i, (i = f ∨ i ∈ ids) → i ≠ b → (h' i).next = (h i).next) →
    (h' b).next = some n → (h' n).next = none →
    Chain h' f (ids ++ [n]) n := by
  intro ids
  induction ids with
  | nil =>
    intro f hc hh hb hn
    have hf : f = b := by
      cases hc with
      | last _ => rfl
    exact hf ▸ Chain.step hb (Chain.last hn)
  | cons i l ih =>
    intro f hc hh hb hn
    obtain ⟨ha, hc'⟩ := hc.cons_next
    have hcnone : (h b).next = none := hc'.back_next_none
    have hane : f ≠ b := by
      intro he
      rw [he, hcnone] at ha
      cases ha
    refine Chain.step ?_ (ih hc' ?_ hb hn)
    · rw [hh f (Or.inl rfl) hane]; exact ha
    · intro j hj hjne
      rcases hj with hj | hj
      · exact hh j (Or.inr (by simp [hj])) hjne
      · exact hh j (Or.inr (List.mem_cons_of_mem _ hj)) hjne

/-- Closed form of a successful `QueueMwCAS::push`. -/
theorem QueueMwCAS.push_eq {α : Type} {s : QState α} (x : α)
    (hne : s.back ≠ s.nextId) (hbn : (s.heap s.back).next = none) :
    QueueMwCAS.push x s = some
      { heap := fun i =>
          if i = s.back then { s.heap s.back with next := some s.nextId }
          else if i = s.nextId then { elem := x, next := none } else s.heap i,
        nextId := s.nextId + 1, front := s.front, back := s.nextId } := by
  unfold QueueMwCAS.push
  simp [if_neg hne, hbn]

theorem QueueMwCAS.push_rep {α : Type} {s : QState α} {xs : List α} (x : α)
    (hr : QueueRep s xs) :
    ∃ s', QueueMwCAS.push x s = some s' ∧ QueueRep s' (xs ++ [x]) := by
  obtain ⟨ids, hc, hxs, hfr, hids⟩ := hr
  have hback_lt : s.back < s.nextId := by
    rcases hc.back_mem with h | h
    · exact h ▸ hfr
    · exact hids _ h
  have hbn : (s.heap s.back).next = none := hc.back_next_none
  refine ⟨_, QueueMwCAS.push_eq x (Nat.ne_of_lt hback_lt) hbn, ids ++ [s.nextId], ?_, ?_, ?_, ?_⟩
  · refine hc.snoc ?_ (by simp) (by simp [ne_of_gt hback_lt])
    · intro i hi hib
      have hilt : i < s.nextId := by
        rcases hi with hi | hi
        · exact hi ▸ hfr
        · exact hids _ hi
      simp only [if_neg hib, if_neg (Nat.ne_of_lt hilt)]
  · rw [hxs, List.map_append]
    congr 1
    · refine List.map_congr_left ?_
      intro i hi
      have hilt : i < s.nextId := hids _ hi
      by_cases hib : i = s.back
      · simp [hib]
      · simp [hib, Nat.ne_of_lt hilt]
    · simp [ne_of_gt hback_lt]
  · exact Nat.lt_succ_of_lt hfr
  · intro i hi
    rcases List.mem_append.mp hi with hi | hi
    · exact Nat.lt_succ_of_lt (hids _ hi)
    · simp only [List.mem_singleton] at hi
      simp [hi]

theorem QueueMwCAS.pop_rep_nil {α : Type} {s : QState α} (hr : QueueRep s []) :
    QueueMwCAS.pop s = (none, s) := by
  obtain ⟨ids, hc, hxs, -, -⟩ := hr
  have hids_nil : ids = [] := by
    cases ids with
    | nil => rfl
    | cons a l => simp at hxs
  subst hids_nil
  unfold QueueMwCAS.pop
  rw [hc.nil_next]

theorem QueueMwCAS.pop_rep_cons {α : Type} {s : QState α} {x : α} {xs : List α}
    (hr : QueueRep s (x :: xs)) :
    (QueueMwCAS.pop s).1 = some x ∧ QueueRep (QueueMwCAS.pop s).2 xs := by
  obtain ⟨ids, hc, hxs, hfr, hids⟩ := hr
  cases ids with
  | nil => simp at hxs
  | cons i ids' =>
    obtain ⟨ha, hc'⟩ := hc.cons_next
    simp only [List.map_cons, List.cons.injEq] at hxs
    unfold QueueMwCAS.pop
    rw [ha]
    refine ⟨by simp [hxs.1], ids', hc', hxs.2, ?_, ?_⟩
    · exact hids _ (by simp)
    · intro j hj
      exact hids _ (List.mem_cons_of_mem _ hj)

theorem QState.init_rep {α : Type} [Inhabited α] : QueueRep (QState.init α) [] :=
  ⟨[], Chain.last rfl, rfl, Nat.zero_lt_one, by simp⟩

theorem QueueMwCAS.pushAll_rep {α : Type} (l : List α) :
    ∀ (s : QState α) (xs : List α), QueueRep s xs →
      ∃ s', QueueMwCAS.pushAll l s = some s' ∧ QueueRep s' (xs ++ l) := by
  induction l with
  | nil => intro s xs hr; exact ⟨s, rfl, by simpa using hr⟩
  | cons x l ih =>
    intro s xs hr
    obtain ⟨s₁, hpush, hr₁⟩ := QueueMwCAS.push_rep x hr
    obtain ⟨s', hall, hr'⟩ := ih s₁ (xs ++ [x]) hr₁
    refine ⟨s', ?_, by simpa using hr'⟩
    unfold QueueMwCAS.pushAll at hall ⊢
    simp only [List.foldlM_cons, hpush, Option.bind_eq_bind, Option.some_bind]
    exact hall

theorem QueueMwCAS.popAll_rep {α : Type} (xs : List α) :
    ∀ (s : QState α), QueueRep s xs →
      QueueMwCAS.popAll (xs.length + 1) s = xs.map some ++ [none] := by
  induction xs with
  | nil =>
    intro s hr
    simp [QueueMwCAS.popAll, QueueMwCAS.pop_rep_nil hr]
  | cons x xs ih =>
    intro s hr
    obtain ⟨h1, h2⟩ := QueueMwCAS.pop_rep_cons hr
    show (QueueMwCAS.pop s).1 ::
        QueueMwCAS.popAll (xs.length + 1) (QueueMwCAS.pop s).2 = _
    rw [h1, ih _ h2]
    simp

/-! ## Transfer to the container-directory variant -/

theorem ContainerQueueMwCAS.push_eq_queue {α : Type} (x : α) (s : QState α) :
    ContainerQueueMwCAS.push x s = QueueMwCAS.push x s := rfl

theorem ContainerQueueMwCAS.pop_eq_queue {α : Type} (s : QState α) :
    ContainerQueueMwCAS.pop s = (QueueMwCAS.pop s).2 := by
  unfold ContainerQueueMwCAS.pop QueueMwCAS.pop
  cases (s.heap s.front).next <;> rfl

theorem ContainerQueueMwCAS.pop_rep {α : Type} {s : QState α} {xs : List α}
    (hr : QueueRep s xs) :
    ∃ xs', QueueRep (ContainerQueueMwCAS.pop s) xs' := by
  cases xs with
  | nil =>
    rw [ContainerQueueMwCAS.pop_eq_queue, QueueMwCAS.pop_rep_nil hr]
    exact ⟨[], hr⟩
  | cons x xs =>
    rw [ContainerQueueMwCAS.pop_eq_queue]
    exact ⟨xs, (QueueMwCAS.pop_rep_cons hr).2⟩

theorem ContainerQueueMwCAS.runOps_rep {α : Type} (ops : List (ContainerQueueMwCAS.QOp α)) :
    ∀ (s : QState α) (xs : List α), QueueRep s xs →
      ∃ s' xs', ContainerQueueMwCAS.runOps ops s = some s' ∧ QueueRep s' xs' := by
  induction ops with
  | nil => intro s xs hr; exact ⟨s, xs, rfl, hr⟩
  | cons op ops ih =>
    intro s xs hr
    cases op with
    | push x =>
      obtain ⟨s₁, hp, hr₁⟩ := QueueMwCAS.push_rep x hr
      obtain ⟨s', xs', hrun, hr'⟩ := ih s₁ (xs ++ [x]) hr₁
      refine ⟨s', xs', ?_, hr'⟩
      unfold ContainerQueueMwCAS.runOps
      rw [ContainerQueueMwCAS.push_eq_queue, hp]
      exact hrun
    | pop =>
      obtain ⟨xs', hr'⟩ := ContainerQueueMwCAS.pop_rep hr
      obtain ⟨s', xs'', hrun, hr''⟩ := ih _ xs' hr'
      exact ⟨s', xs'', hrun, hr''⟩

/-- The `IsValid` walk of the container queue terminates at the chain's
last node when given enough fuel. -/
theorem Chain.isValidAux {α : Type} {h : Nat → Node α} :
    ∀ {ids : List Nat} {f b : Nat}, Chain h f ids b →
    ∀ fuel, ids.length ≤ fuel →
    ContainerQueueMwCAS.IsValidAux h fuel f = some b := by
  intro ids
  induction ids with
  | nil =>
    intro f b hc fuel _
    have hf : f = b := by
      cases hc with
      | last _ => rfl
    unfold ContainerQueueMwCAS.IsValidAux
    rw [hc.nil_next, hf]
  | cons i l ih =>
    intro f b hc fuel hfuel
    obtain ⟨ha, hc'⟩ := hc.cons_next
    cases fuel with
    | zero => simp at hfuel
    | succ fl =>
      unfold ContainerQueueMwCAS.IsValidAux
      rw [ha]
      exact ih hc' fl (by simpa using hfuel)

/-! ## Claim theorems C1, C4, C5 -/

/-- C1: on an initially empty MwCAS-variant queue, pushing
`x_0, …, x_{n-1}` in order (every push's lock-free loop terminates) and
then popping `n + 1` times returns `some x_0, …, some x_{n-1}` in FIFO
order followed by `none`; `n = 1` is the push-then-pop round trip. -/
theorem C1_mwcas_queue_fifo {α : Type} [Inhabited α] (l : List α) :
    ∃ s', QueueMwCAS.pushAll l (QState.init α) = some s' ∧
      QueueMwCAS.popAll (l.length + 1) s' = l.map some ++ [none] := by
  obtain ⟨s', hpush, hrep⟩ := QueueMwCAS.pushAll_rep l (QState.init α) [] QState.init_rep
  exact ⟨s', hpush, QueueMwCAS.popAll_rep l s' (by simpa using hrep)⟩

/-- C4: for both the single-word-CAS queue and the MwCAS queue, `pop`
on a state whose front sentinel's `next` link is null returns `none`
without entering the retry loop and leaves the state unchanged. -/
theorem C4_pop_empty_none {α : Type} (s : QState α)
    (h : (s.heap s.front).next = none) :
    QueueCAS.pop s = (none, s) ∧ QueueMwCAS.pop s = (none, s) := by
  constructor
  · unfold QueueCAS.pop; rw [h]
  · unfold QueueMwCAS.pop; rw [h]

/-- Witness for C4 at the freshly constructed (empty) queue. -/
theorem C4_pop_empty_none_witness :
    ((QState.init Nat).heap (QState.init Nat).front).next = none ∧
      (QueueCAS.pop (QState.init Nat) = (none, QState.init Nat) ∧
        QueueMwCAS.pop (QState.init Nat) = (none, QState.init Nat)) :=
  ⟨rfl, C4_pop_empty_none (QState.init Nat) rfl⟩

/-- C5: after any finite quiescent sequence of push/pop operations from
a fresh container-directory MwCAS queue, the `IsValid` scan holds:
walking `next` from `front_` reaches `back_` in finitely many steps
(some fuel makes the bounded walk return `back_`), and `back_->next`
is null. -/
theorem C5_isvalid_after_ops (ops : List (ContainerQueueMwCAS.QOp Nat)) :
    ∃ s, ContainerQueueMwCAS.runOps ops (QState.init Nat) = some s ∧
      (∃ fuel, ContainerQueueMwCAS.IsValid s fuel = true) ∧
      (s.heap s.back).next = none := by
  obtain ⟨s, xs, hrun, hrep⟩ :=
    ContainerQueueMwCAS.runOps_rep ops (QState.init Nat) [] QState.init_rep
  obtain ⟨ids, hc, -, -, -⟩ := hrep
  refine ⟨s, hrun, ⟨ids.length, ?_⟩, hc.back_next_none⟩
  unfold ContainerQueueMwCAS.IsValid
  rw [hc.isValidAux ids.length (Nat.le_refl _)]
  simp

/-! ## Worker operation generation
(src/src/worker.hpp: `Worker<Wrapper>::Worker`, lines 276-307, and the
abstract `Worker::PrepareBench`, lines 54-83)

The Zipf workload generator together with the seeded `std::mt19937_64`
engine is, per the spec (sections 1 and 6), an external collaborator
consumed through a `(rng state) -> index` interface; it is embedded as
a stream `draws : Nat → Nat` of successive outputs (equal seeds give
equal streams).  `std::sort` is embedded as `List.insertionSort
(· ≤ ·)` (a sorting function; `std::sort`'s contract is only that the
range ends up sorted).  The `std::array` local `targets` is modelled as
its initialised prefix (built below) together with `junk`, the
indeterminate values of its remaining `kMaxTargetNum - n` slots, which
the C++ code never writes before sorting. -/

/-- `kMaxTargetNum` (src/src/common.hpp): build-time maximum number of
MwCAS targets (default 8). -/
def kMaxTargetNum : Nat := 8

/-- The inner do-while of operation generation: draw from the stream at
position `pos` until the value is not among the already-chosen ones;
`none` if `fuel` draws all collide (the C++ loop would keep spinning). -/
def drawFresh (draws : Nat → Nat) (chosen : List Nat) : Nat → Nat → Option (Nat × Nat)
  | _, 0 => none
  | pos, fuel + 1 =>
    let v := draws pos
    if v ∈ chosen then drawFresh draws chosen (pos + 1) fuel else some (v, pos + 1)

/-- The `for (j = 0; j < target_num; ++j)` loop: extend the accumulator
by one fresh draw per step. -/
def genChosen (draws : Nat → Nat) (fuel : Nat) : Nat → List Nat → Nat → Option (List Nat × Nat)
  | 0, acc, pos => some (acc, pos)
  | j + 1, acc, pos =>
    match drawFresh draws acc pos fuel with
    | none => none
    | some (v, pos') => genChosen draws fuel j (acc ++ [v]) pos'

/-- One operation of `Worker::PrepareBench` (src/src/worker.hpp, lines
54-83): choose `n` distinct field ids, then
`std::sort(mwcas_target.begin(), mwcas_target.begin() + mwcas_target_num_)`
— only the first `n` slots are sorted; the indeterminate tail stays. -/
def prepareBenchOp (draws : Nat → Nat) (n : Nat) (junk : List Nat) (pos fuel : Nat) :
    Option (List Nat × Nat) :=
  (genChosen draws fuel n [] pos).map
    (fun p => (p.1.insertionSort (· ≤ ·) ++ junk, p.2))

/-- One operation of `Worker<Wrapper>::Worker` (src/src/worker.hpp,
lines 289-306): choose `n` distinct addresses
(`addr = target_fields[zipf_engine(rand_engine)]`), then
`std::sort(targets.begin(), targets.end())` — the WHOLE `kMaxTargetNum`
array is sorted, indeterminate tail slots included. -/
def workerOp (fields : List Nat) (draws : Nat → Nat) (n : Nat) (junk : List Nat)
    (pos fuel : Nat) : Option (List Nat × Nat) :=
  (genChosen (fun p => fields.getD (draws p) 0) fuel n [] pos).map
    (fun p => ((p.1 ++ junk).insertionSort (· ≤ ·), p.2))

/-- The whole `operations_` list of `Worker<Wrapper>::Worker`: `count`
operations generated in sequence, threading the stream position. -/
def workerOps (fields : List Nat) (draws : Nat → Nat) (n : Nat) (junk : List Nat)
    (fuel : Nat) : Nat → Nat → Option (List (List Nat))
  | 0, _ => some []
  | k + 1, pos =>
    match workerOp fields draws n junk pos fuel with
    | none => none
    | some (arr, pos') => (workerOps fields draws n junk fuel k pos').map (arr :: ·)

/-- The chosen values are distinct by construction (the do-while
rejects values already present). -/
theorem genChosen_nodup (draws : Nat → Nat) (fuel : Nat) :
    ∀ (j : Nat) (acc : List Nat) (pos : Nat) (res : List Nat × Nat),
      genChosen draws fuel j acc pos = some res → acc.Nodup → res.1.Nodup := by
  intro j
  induction j with
  | zero =>
    intro acc pos res h hacc
    unfold genChosen at h
    cases h
    exact hacc
  | succ j ih =>
    intro acc pos res h hacc
    unfold genChosen at h
    have hfresh : ∀ (ch : List Nat) (p fl : Nat) (r : Nat × Nat),
        drawFresh draws ch p fl = some r → r.1 ∉ ch := by
      intro ch p fl
      induction fl generalizing p with
      | zero => intro r hr; cases hr
      | succ fl ihf =>
        intro r hr
        unfold drawFresh at hr
        by_cases hm : draws p ∈ ch
        · rw [if_pos hm] at hr
          exact ihf _ _ hr
        · rw [if_neg hm] at hr
          cases hr
          exact hm
    cases hdf : drawFresh draws acc pos fuel with
    | none => rw [hdf] at h; cases h
    | some r =>
      rw [hdf] at h
      refine ih _ _ _ h ?_
      have : r.1 ∉ acc := hfresh _ _ _ _ hdf
      simp [List.nodup_append, hacc, this]

/-- `Worker::PrepareBench` (the partial-sort revision) satisfies the
claimed invariant: the first `n` slots of a generated operation are
pairwise-distinct field ids sorted ascending — the property the spec
states ("addresses distinct and pre-sorted"). -/
theorem prepareBenchOp_distinct_sorted (draws : Nat → Nat) (n : Nat) (junk : List Nat)
    (pos fuel : Nat) (res : List Nat × Nat)
    (h : prepareBenchOp draws n junk pos fuel = some res) :
    (res.1.take n).Sorted (· ≤ ·) ∧ (res.1.take n).Nodup := by
  unfold prepareBenchOp at h
  cases hg : genChosen draws fuel n [] pos with
  | none => rw [hg] at h; cases h
  | some p =>
    rw [hg] at h
    cases h
    have hlen : p.1.length = n := by
      have : ∀ (j : Nat) (acc : List Nat) (ps : Nat) (r : List Nat × Nat),
          genChosen draws fuel j acc ps = some r → r.1.length = acc.length + j := by
        intro j
        induction j with
        | zero =>
          intro acc ps r hr
          unfold genChosen at hr
          cases hr
          simp
        | succ j ih =>
          intro acc ps r hr
          unfold genChosen at hr
          cases hdf : drawFresh draws acc ps fuel with
          | none => rw [hdf] at hr; cases hr
          | some v =>
            rw [hdf] at hr
            have := ih _ _ _ hr
            simp only [List.length_append, List.length_cons, List.length_nil] at this
            omega
      simpa using this n [] pos p hg
    have hsortlen : (p.1.insertionSort (· ≤ ·)).length = n := by
      rw [(p.1.perm_insertionSort (· ≤ ·)).length_eq, hlen]
    have htake : ((p.1.insertionSort (· ≤ ·) ++ junk).take n) = p.1.insertionSort (· ≤ ·) := by
      rw [List.take_append_of_le_length (by omega), List.take_of_length_le (by omega)]
    rw [htake]
    refine ⟨List.sorted_insertionSort _ _, ?_⟩
    exact ((p.1.perm_insertionSort (· ≤ ·)).nodup_iff).mpr
      (genChosen_nodup draws fuel n [] pos p hg (by simp))

/-- C2 (failing execution): `Worker<Wrapper>::Worker` sorts the whole
8-slot `targets` array, mixing the six never-written (indeterminate)
tail slots into the order.  With `num_target = 2`, selected addresses
`50` and `70` (fields `[10,…,80]`, zipf indexes `4` then `6`) and
zero-valued junk, the generated array is `[0,0,0,0,0,0,50,70]`: its
first `num_target` entries are `[0, 0]` — not pairwise distinct, and
not the addresses the operation selected — and the MwCAS descriptor is
then built from those junk entries. -/
theorem C2_full_sort_reads_junk :
    workerOp [10, 20, 30, 40, 50, 60, 70, 80] (fun p => if p = 0 then 4 else 6) 2
        [0, 0, 0, 0, 0, 0] 0 8 = some ([0, 0, 0, 0, 0, 0, 50, 70], 2) ∧
      ¬ (([0, 0, 0, 0, 0, 0, 50, 70] : List Nat).take 2).Nodup := by
  constructor
  · rfl
  · decide

/-- C10 (failing execution): two workers constructed with equal random
seeds (equal draw streams), equal target-field arrays, equal
`target_num` and equal operation counts, but different indeterminate
stack contents in the `targets` array, produce different operation
lists — the full-array sort folds the uninitialised slots into the
stored operations. -/
theorem C10_generation_depends_on_junk :
    workerOps [10, 20, 30, 40, 50, 60, 70, 80] (fun p => if p = 0 then 4 else 6) 2
        [0, 0, 0, 0, 0, 0] 8 1 0 ≠
      workerOps [10, 20, 30, 40, 50, 60, 70, 80] (fun p => if p = 0 then 4 else 6) 2
        [1, 1, 1, 1, 1, 1] 8 1 0 := by
  decide

/-! ## Worker MwCAS execution (src/src/worker.hpp, lines 425-480)

Shared memory is a word store `Nat → Nat`; every value is reduced
`% 2 ^ 64` where the C++ `size_t` arithmetic can wrap. -/

/-- Modelled from the spec, section 4.3 (the `MwCASDescriptor` engine is
the external MwCAS library, not part of this repository's tree): a
multi-word CAS checks that every target address holds its expected
value and, if all do, writes every desired value; otherwise it fails
and leaves memory unchanged.  Single-threaded there is no helping or
intermediate descriptor state to observe. -/
def mwcasMem (mem : Nat → Nat) (entries : List (Nat × Nat × Nat)) : Bool × (Nat → Nat) :=
  if entries.all (fun e => mem e.1 == e.2.1) then
    (true, entries.foldl (fun m e => fun a => if a = e.1 then e.2.2 else m a) mem)
  else
    (false, mem)

/-- `Worker<MwCAS>::PerformMwCAS` (src/src/worker.hpp, lines 429-444):
build a descriptor whose entries are
`(addr, old, old + 1)` for each of the first `target_num_` targets,
with `old = ReadMwCASField(addr)`, then run the MwCAS.  Single-threaded
the expected values are the just-read ones, so the first attempt of the
retry loop succeeds. -/
def performMwCAS (mem : Nat → Nat) (targets : List Nat) : Nat → Nat :=
  (mwcasMem mem (targets.map fun a => (a, mem a, (mem a + 1) % 2 ^ 64))).2

/-- `Worker<SingleCAS>::PerformMwCAS` (src/src/worker.hpp, lines
468-480): for each target in order, a CAS-increment loop; the
single-threaded CAS succeeds on the first try with `new = old + 1`. -/
def performSingleCAS (mem : Nat → Nat) (targets : List Nat) : Nat → Nat :=
  targets.foldl (fun m a => fun a' => if a' = a then (m a + 1) % 2 ^ 64 else m a') mem

theorem mwcasMem_writes (mem : Nat → Nat) (ts : List Nat) (a : Nat) :
    ∀ acc : Nat → Nat,
      (ts.map fun t => (t, mem t, (mem t + 1) % 2 ^ 64)).foldl
          (fun m e => fun a' => if a' = e.1 then e.2.2 else m a') acc a =
        if a ∈ ts then (mem a + 1) % 2 ^ 64 else acc a := by
  induction ts with
  | nil => intro acc; simp
  | cons t ts ih =>
    intro acc
    simp only [List.map_cons, List.foldl_cons]
    rw [ih]
    by_cases h1 : a ∈ ts <;> by_cases h2 : a = t <;> simp [h1, h2]

theorem performMwCAS_apply (mem : Nat → Nat) (ts : List Nat) (a : Nat) :
    performMwCAS mem ts a = if a ∈ ts then (mem a + 1) % 2 ^ 64 else mem a := by
  unfold performMwCAS mwcasMem
  have hall : (ts.map fun t => (t, mem t, (mem t + 1) % 2 ^ 64)).all
      (fun e => mem e.1 == e.2.1) = true := by
    rw [List.all_eq_true]
    intro e he
    obtain ⟨t, -, rfl⟩ := List.mem_map.mp he
    simp
  rw [if_pos hall]
  exact mwcasMem_writes mem ts a mem

theorem performSingleCAS_apply (mem : Nat → Nat) (ts : List Nat) (hnd : ts.Nodup) (a : Nat) :
    performSingleCAS mem ts a = if a ∈ ts then (mem a + 1) % 2 ^ 64 else mem a := by
  induction ts generalizing mem with
  | nil => simp [performSingleCAS]
  | cons t ts ih =>
    have hnd' : ts.Nodup := (List.nodup_cons.mp hnd).2
    have htm : t ∉ ts := (List.nodup_cons.mp hnd).1
    unfold performSingleCAS
    simp only [List.foldl_cons]
    have := ih (fun a' => if a' = t then (mem t + 1) % 2 ^ 64 else mem a') hnd'
    unfold performSingleCAS at this
    rw [this]
    by_cases h1 : a ∈ ts
    · have h2 : a ≠ t := fun he => htm (he ▸ h1)
      simp [h1, h2]
    · by_cases h2 : a = t
      · subst h2
        simp [h1, htm]
      · simp [h1, h2]

/-- C9: in the single-threaded embedding, `Worker<MwCAS>::PerformMwCAS`
and `Worker<SingleCAS>::PerformMwCAS` have the same effect on memory
for an operation over pairwise-distinct targets: each target word is
incremented by one modulo `2 ^ 64`, every other word is unchanged. -/
theorem C9_mwcas_singlecas_equiv (mem : Nat → Nat) (targets : List Nat)
    (hnd : targets.Nodup) (a : Nat) :
    performMwCAS mem targets a = performSingleCAS mem targets a ∧
      (a ∈ targets → performMwCAS mem targets a = (mem a + 1) % 2 ^ 64) ∧
      (a ∉ targets → performMwCAS mem targets a = mem a) := by
  refine ⟨?_, ?_, ?_⟩
  · rw [performMwCAS_apply, performSingleCAS_apply mem targets hnd]
  · intro h; rw [performMwCAS_apply, if_pos h]
  · intro h; rw [performMwCAS_apply, if_neg h]

/-- Witness for C9 on a concrete memory and target pair. -/
theorem C9_mwcas_singlecas_equiv_witness :
    ([2, 5] : List Nat).Nodup ∧
      (performMwCAS (fun _ => 7) [2, 5] 2 = performSingleCAS (fun _ => 7) [2, 5] 2 ∧
        (2 ∈ [2, 5] → performMwCAS (fun _ => 7) [2, 5] 2 = ((fun _ : Nat => 7) 2 + 1) % 2 ^ 64) ∧
        (2 ∉ [2, 5] → performMwCAS (fun _ => 7) [2, 5] 2 = (fun _ : Nat => 7) 2)) :=
  ⟨by decide, C9_mwcas_singlecas_equiv (fun _ => 7) [2, 5] (by decide) 2⟩

/-! ## Driver configuration and aggregation -/

/-- `ValidateTargetNum` (src/src/mwcas_bench.cpp, lines 45-54):
`value > 0 && value <= kMaxTargetNum`; on failure the validator prints
a diagnostic and returns `false` (gflags then rejects the run). -/
def ValidateTargetNum (value : Nat) : Bool :=
  decide (0 < value) && decide (value ≤ kMaxTargetNum)

/-- C7: the `num_target` validator accepts `v` iff `1 ≤ v ≤ K` with
`K = kMaxTargetNum = 8`; every other value is rejected (the printed
diagnostic and the non-zero exit on a failed validator are gflags
behaviour, outside this repository). -/
theorem C7_validate_num_target (v : Nat) :
    ValidateTargetNum v = true ↔ 1 ≤ v ∧ v ≤ 8 := by
  unfold ValidateTargetNum kMaxTargetNum
  rw [Bool.and_eq_true, decide_eq_true_eq, decide_eq_true_eq]
  omega

/-- The per-worker operation counts of `MwCASBench::RunMwCASBench`
(src/src/mwcas_bench.hpp, lines 356-369): worker `i` receives
`exec_num_ / thread_num_` if `i < thread_num_ - 1`, and
`exec_num_ - sum_exec_num` (the remainder) if it is the last one. -/
def execSplit (N T : Nat) : List Nat :=
  ((List.range T).foldl
    (fun acc i =>
      let e := if i < T - 1 then N / T else N - acc.2
      (acc.1 ++ [e], acc.2 + e))
    ([], 0)).1

theorem execSplit_prefix (N T : Nat) :
    ∀ k, k ≤ T - 1 →
      (List.range k).foldl
          (fun acc i =>
            let e := if i < T - 1 then N / T else N - acc.2
            (acc.1 ++ [e], acc.2 + e))
          ([], 0) =
        (List.replicate k (N / T), k * (N / T)) := by
  intro k
  induction k with
  | zero => intro _; simp
  | succ k ih =>
    intro hk
    rw [List.range_succ, List.foldl_append, ih (by omega)]
    simp only [List.foldl_cons, List.foldl_nil, if_pos (by omega : k < T - 1)]
    simp [List.replicate_succ', Nat.succ_mul]

theorem getD_replicate_append_lt {α : Type} {a d x : α} :
    ∀ {n i : Nat}, i < n → (List.replicate n a ++ [x]).getD i d = a := by
  intro n
  induction n with
  | zero => intro i hi; cases hi
  | succ n ih =>
    intro i hi
    cases i with
    | zero => rfl
    | succ i => exact ih (by omega)

theorem getD_replicate_append_last {α : Type} {a d x : α} :
    ∀ {n : Nat}, (List.replicate n a ++ [x]).getD n d = x := by
  intro n
  induction n with
  | zero => rfl
  | succ n ih => exact ih

/-- C8: for `num_exec ≥ 1`, `num_thread ≥ 1`, the driver's split gives
every non-final worker `⌊N/T⌋` operations and the final worker the
remainder, and the per-worker counts sum to exactly `N`. -/
theorem C8_exec_split (N T : Nat) (hN : 1 ≤ N) (hT : 1 ≤ T) :
    (execSplit N T).length = T ∧
      (execSplit N T).sum = N ∧
      (∀ i, i < T - 1 → (execSplit N T).getD i 0 = N / T) ∧
      (execSplit N T).getD (T - 1) 0 = N - (T - 1) * (N / T) := by
  have hTsub : T = (T - 1) + 1 := by omega
  have hrange : List.range T = List.range (T - 1) ++ [T - 1] := by
    conv_lhs => rw [hTsub]
    rw [List.range_succ]
  have hsplit : execSplit N T =
      List.replicate (T - 1) (N / T) ++ [N - (T - 1) * (N / T)] := by
    unfold execSplit
    rw [hrange, List.foldl_append, execSplit_prefix N T (T - 1) (Nat.le_refl _)]
    simp only [List.foldl_cons, List.foldl_nil, if_neg (Nat.lt_irrefl (T - 1))]
  have hle : (T - 1) * (N / T) ≤ N := by
    calc (T - 1) * (N / T) ≤ T * (N / T) := by
          exact Nat.mul_le_mul_right _ (by omega)
      _ ≤ N := by
          rw [Nat.mul_comm]
          exact Nat.div_mul_le_self N T
  refine ⟨?_, ?_, ?_, ?_⟩
  · rw [hsplit]; simp; omega
  · rw [hsplit]
    simp only [List.sum_append, List.sum_replicate, List.sum_cons, List.sum_nil,
      smul_eq_mul]
    omega
  · intro i hi
    rw [hsplit, getD_replicate_append_lt hi]
  · rw [hsplit, getD_replicate_append_last]

/-- Witness for C8 at `N = 7`, `T = 3`. -/
theorem C8_exec_split_witness :
    1 ≤ 7 ∧
      ((execSplit 7 3).length = 3 ∧
        (execSplit 7 3).sum = 7 ∧
        (∀ i, i < 3 - 1 → (execSplit 7 3).getD i 0 = 7 / 3) ∧
        (execSplit 7 3).getD (3 - 1) 0 = 7 - (3 - 1) * (7 / 3)) :=
  ⟨by decide, C8_exec_split 7 3 (by decide) (by decide)⟩

/-- `MwCASBench::LogThroughput` (src/src/mwcas_bench.hpp, lines
120-136): sum the workers' total times, divide by `thread_num_` with
`size_t` (truncating) division, then report
`exec_num_ / (avg_nano_time / 1E9)`; the `double` arithmetic of the
final expression is embedded exactly over `ℚ`. -/
def LogThroughput (times : List Nat) (threadNum execNum : Nat) : ℚ :=
  let avg : Nat := (times.foldl (· + ·) 0) / threadNum
  (execNum : ℚ) / ((avg : ℚ) / (10 ^ 9 : ℚ))

/-- The formula C6 claims: total operations divided by the exact mean
of the workers' wall-clock times in seconds. -/
def claimedThroughput (times : List Nat) (threadNum execNum : Nat) : ℚ :=
  (execNum : ℚ) / ((((times.foldl (· + ·) 0 : Nat) : ℚ) / (threadNum : ℚ)) / (10 ^ 9 : ℚ))

/-- C6 fails as stated: with two workers whose times are 1 ns and 2 ns,
the code divides by the truncated integer mean `⌊3/2⌋ = 1` ns, not by
the exact mean 1.5 ns. -/
theorem C6_counterexample :
    LogThroughput [1, 2] 2 1 ≠ claimedThroughput [1, 2] 2 1 := by
  unfold LogThroughput claimedThroughput
  norm_num

/-- C6 (amended): the reported throughput equals `num_exec` divided by
the integer-truncated mean `⌊(Σ times) / T⌋` nanoseconds expressed in
seconds; it coincides with the exact-mean formula precisely when `T`
divides the summed time. -/
theorem C6_throughput_truncated_mean (times : List Nat) (T N : Nat) (hT : 0 < T)
    (hdvd : T ∣ times.foldl (· + ·) 0) :
    LogThroughput times T N =
        (N : ℚ) / ((((times.foldl (· + ·) 0) / T : Nat) : ℚ) / (10 ^ 9 : ℚ)) ∧
      LogThroughput times T N = claimedThroughput times T N := by
  constructor
  · rfl
  · unfold LogThroughput claimedThroughput
    dsimp only
    rw [Nat.cast_div hdvd (Nat.cast_ne_zero.mpr hT.ne')]

/-- Witness for C6 (amended) at `times = [2, 4]`, `T = 2`, `N = 10`. -/
theorem C6_throughput_truncated_mean_witness :
    (2 : Nat) ∣ [2, 4].foldl (· + ·) 0 ∧
      (LogThroughput [2, 4] 2 10 =
          (10 : ℚ) / (((([2, 4].foldl (· + ·) 0) / 2 : Nat) : ℚ) / (10 ^ 9 : ℚ)) ∧
        LogThroughput [2, 4] 2 10 = claimedThroughput [2, 4] 2 10) :=
  ⟨by decide, C6_throughput_truncated_mean [2, 4] 2 10 (by decide) (by decide)⟩

/-! ## Latency aggregation — `MwCASBench::LogLatency`
(src/src/mwcas_bench.hpp, lines 143-195)

The per-worker latency arrays are `ws : List (List Nat)` (each sorted
ascending by `SortExecutionTimes` before aggregation).  `indexes` are
`size_t` positions; decrementing past zero wraps to a huge value and
the subsequent `GetLatency` call reads out of bounds, so indexes are
embedded as `Int` and any out-of-range read returns the unspecified
value `g`.  The four percentile locals are declared uninitialised in
the C++ (`size_t lat_0 = max, lat_90, lat_95, lat_99, lat_100;`); their
indeterminate initial contents are the record `u`.  The `double`
products `exec_num_ * 0.90/0.95/0.99` are embedded exactly: the loop
guard `count >= exec_num_ * 0.90` becomes `90 * N ≤ 100 * count` and
`static_cast<size_t>(exec_num_ * c)` becomes the floor `c' * N / 100`. -/

/-- `workers[thread]->GetLatency(indexes[thread])`: an in-range read
returns the stored latency, an out-of-range (or wrapped-negative) index
reads unspecified memory `g`. -/
def readLat (ws : List (List Nat)) (g : Nat) (t : Nat) (i : Int) : Nat :=
  if i < 0 then g else (ws.getD t []).getD i.toNat g

/-- The inner `for (thread = 0; ...)` argmax scan: running maximum
(starting from `numeric_limits<size_t>::min() = 0`) and its thread,
updated on strict improvement. -/
def selectMax (ws : List (List Nat)) (g : Nat) (T : Nat) (idxs : List Int) : Nat × Nat :=
  (List.range T).foldl
    (fun p t =>
      let v := readLat ws g t (idxs.getD t 0)
      if p.2 < v then (t, v) else p)
    (0, 0)

/-- The five reported latencies. -/
structure LatResult where
  l0 : Nat
  l90 : Nat
  l95 : Nat
  l99 : Nat
  l100 : Nat
  deriving DecidableEq

/-- One iteration of the descending-count loop: pick the maximal
current top, record it when `count` hits a percentile cut point
(the `else if` chain), then decrement the winner's index. -/
def latBody (ws : List (List Nat)) (g : Nat) (T N count : Nat)
    (st : List Int × LatResult) : List Int × LatResult :=
  let sel := selectMax ws g T st.1
  let r := st.2
  let r' :=
    if count = N then { r with l100 := sel.2 }
    else if count = 99 * N / 100 then { r with l99 := sel.2 }
    else if count = 95 * N / 100 then { r with l95 := sel.2 }
    else if count = 90 * N / 100 then { r with l90 := sel.2 }
    else r
  (st.1.set sel.1 (st.1.getD sel.1 0 - 1), r')

/-- `for (count = exec_num_; count >= exec_num_ * 0.90; --count)`,
structurally on `count`.  (For `N = 0` the C++ counter would wrap
below zero; the claims all require `N ≥ 1`, where the two agree.) -/
def latLoop (ws : List (List Nat)) (g : Nat) (T N : Nat) :
    Nat → List Int × LatResult → LatResult
  | 0, st => if 90 * N ≤ 100 * 0 then (latBody ws g T N 0 st).2 else st.2
  | c + 1, st =>
    if 90 * N ≤ 100 * (c + 1) then latLoop ws g T N c (latBody ws g T N (c + 1) st)
    else st.2

/-- The pre-loop scan that seeds `lat_0` with the minimum of the
workers' smallest latencies, starting from `numeric_limits::max()`. -/
def latMin (ws : List (List Nat)) (g : Nat) (T : Nat) : Nat :=
  (List.range T).foldl
    (fun acc t =>
      let v := (ws.getD t []).getD 0 g
      if v < acc then v else acc)
    (2 ^ 64 - 1)

/-- `MwCASBench::LogLatency` (src/src/mwcas_bench.hpp, lines 143-195):
initialise `lat_0` and the index list, then run the descending loop
from `count = exec_num_`. -/
def LogLatency (ws : List (List Nat)) (g : Nat) (u : LatResult) (T N : Nat) : LatResult :=
  let idxs : List Int := (List.range T).map (fun t => ((ws.getD t []).length : Int) - 1)
  latLoop ws g T N N (idxs, { u with l0 := latMin ws g T })

/-- C3 fails as stated: with one worker holding the 11 sorted latencies
`1..11`, the loop guard `count >= 11 * 0.90 = 9.9` stops the walk at
`count = 10`, so the cut point `count == ⌊11 * 0.90⌋ = 9` is never
reached and the reported `lat_90` keeps its uninitialised value (here
`0`) instead of the rank-`⌊0.90·11⌋ = 9` element of the merged sorted
order, which is `9`. -/
theorem C3_counterexample_lat90_uninitialised :
    (LogLatency [[1, 2, 3, 4, 5, 6, 7, 8, 9, 10, 11]] 0
        { l0 := 0, l90 := 0, l95 := 0, l99 := 0, l100 := 0 } 1 11).l90 ≠
      ([1, 2, 3, 4, 5, 6, 7, 8, 9, 10, 11] : List Nat).getD (90 * 11 / 100 - 1) 0 := by
  decide

/-! ### List and multiset helpers for the LogLatency proof -/

theorem getD_set_self {α : Type} :
    ∀ {l : List α} {i : Nat} {x d : α}, i < l.length → (l.set i x).getD i d = x := by
  intro l
  induction l with
  | nil => intro i x d h; cases h
  | cons a l ih =>
    intro i x d h
    cases i with
    | zero => rfl
    | succ i => exact ih (by simpa using h)

theorem getD_set_ne {α : Type} :
    ∀ {l : List α} {i j : Nat} {x d : α}, i ≠ j → (l.set i x).getD j d = l.getD j d := by
  intro l
  induction l with
  | nil => intro i j x d _; cases i <;> rfl
  | cons a l ih =>
    intro i j x d h
    cases i with
    | zero =>
      cases j with
      | zero => exact absurd rfl h
      | succ j => rfl
    | succ i =>
      cases j with
      | zero => rfl
      | succ j => exact ih (by omega)

theorem getD_replicate {α : Type} {a d : α} :
    ∀ {n i : Nat}, i < n → (List.replicate n a).getD i d = a := by
  intro n
  induction n with
  | zero => intro i h; cases h
  | succ n ih =>
    intro i h
    cases i with
    | zero => rfl
    | succ i => exact ih (by omega)

theorem getD_map_range {α : Type} (f : Nat → α) (d : α) :
    ∀ {T t : Nat}, t < T → ((List.range T).map f).getD t d = f t := by
  have haux : ∀ (l : List Nat) (t : Nat), t < l.length → (l.map f).getD t d = f (l.getD t 0) := by
    intro l
    induction l with
    | nil => intro t h; cases h
    | cons a l ih =>
      intro t h
      cases t with
      | zero => rfl
      | succ t => exact ih t (by simpa using h)
  intro T t h
  rw [haux (List.range T) t (by simpa using h)]
  congr 1
  rw [List.getD_eq_getElem?_getD, List.getElem?_range h]
  rfl

theorem getD_le_sum {l : List Nat} {i : Nat} (h : i < l.length) :
    l.getD i 0 ≤ l.sum := by
  induction l generalizing i with
  | nil => cases h
  | cons a l ih =>
    cases i with
    | zero => simp [List.getD]
    | succ i =>
      have := ih (by simpa using h)
      simp only [List.getD_cons_succ, List.sum_cons]
      omega

theorem sum_set_succ {l : List Nat} {i : Nat} (h : i < l.length) :
    (l.set i (l.getD i 0 + 1)).sum = l.sum + 1 := by
  induction l generalizing i with
  | nil => cases h
  | cons a l ih =>
    cases i with
    | zero => simp [List.getD]; omega
    | succ i =>
      have hih := ih (by simpa using h)
      show (a :: l.set i (l.getD i 0 + 1)).sum = (a :: l).sum + 1
      simp only [List.sum_cons] at *
      omega

/-- In a `(· ≤ ·)`-sorted list the entry at a smaller position is no
larger. -/
theorem sorted_getD_mono {m : List Nat} (hm : m.Sorted (· ≤ ·)) {i j : Nat}
    (hij : i ≤ j) (hj : j < m.length) : m.getD i 0 ≤ m.getD j 0 := by
  rcases Nat.lt_or_ge i j with hlt | hge
  · have := hm.rel_get_of_lt (a := ⟨i, by omega⟩) (b := ⟨j, hj⟩) (by simpa using hlt)
    rwa [List.getD_eq_getElem _ _ (by omega), List.getD_eq_getElem _ _ hj]
  · have hij' : i = j := by omega
    rw [hij']

/-- The head of a sorted list is a lower bound on its members. -/
theorem sorted_head_le {a : List Nat} (ha : a.Sorted (· ≤ ·)) {g x : Nat}
    (hx : x ∈ a) : a.getD 0 g ≤ x := by
  cases a with
  | nil => cases hx
  | cons h t =>
    rcases List.mem_cons.mp hx with rfl | hx
    · exact Nat.le_refl _
    · exact List.rel_of_sorted_cons ha _ hx

/-- `take (j + 1)` of a list whose `j`-th entry exists splits off that
entry. -/
theorem take_succ_eq_append {m : List Nat} {j : Nat} (hj : j < m.length) :
    m.take (j + 1) = m.take j ++ [m.getD j 0] := by
  rw [List.take_succ]
  congr 1
  rw [List.getElem?_eq_getElem hj]
  rw [List.getD_eq_getElem _ _ hj]
  rfl

/-- The supremum of the first `j + 1` entries of a sorted list is its
`j`-th entry. -/
theorem sup_take_sorted {m : List Nat} (hm : m.Sorted (· ≤ ·)) {j : Nat}
    (hj : j < m.length) :
    ((m.take (j + 1) : List Nat) : Multiset Nat).sup = m.getD j 0 := by
  apply le_antisymm
  · rw [Multiset.sup_le]
    intro b hb
    rw [Multiset.mem_coe] at hb
    obtain ⟨i, hi, hb⟩ := List.getElem_of_mem hb
    have hlen : i < m.length := by
      have := List.length_take (j + 1) m
      omega
    have hib : b = m.getD i 0 := by
      rw [← hb, List.getElem_take, List.getD_eq_getElem _ _ hlen]
    have hij : i ≤ j := by
      have := hi
      simp only [List.length_take] at this
      omega
    rw [hib]
    exact sorted_getD_mono hm hij hj
  · apply Multiset.le_sup
    rw [Multiset.mem_coe, take_succ_eq_append hj]
    simp

/-- Membership in the sum of a mapped family of multisets. -/
theorem mem_sum_map {x : Nat} (f : Nat → Multiset Nat) :
    ∀ (l : List Nat), x ∈ (l.map f).sum ↔ ∃ t ∈ l, x ∈ f t := by
  intro l
  induction l with
  | nil => simp
  | cons a l ih =>
    simp only [List.map_cons, List.sum_cons, Multiset.mem_add, ih, List.mem_cons]
    constructor
    · rintro (h | ⟨t, ht, hx⟩)
      · exact ⟨a, Or.inl rfl, h⟩
      · exact ⟨t, Or.inr ht, hx⟩
    · rintro ⟨t, rfl | ht, hx⟩
      · exact Or.inl hx
      · exact Or.inr ⟨t, ht, hx⟩

/-- Replacing the image at one (nodup) position of a mapped-sum by a
smaller multiset removes exactly the difference. -/
theorem sum_map_set_diff (f f' : Nat → Multiset Nat) (d : Multiset Nat) (i : Nat) :
    ∀ (l : List Nat), l.Nodup → i ∈ l → f i = f' i + d →
      (∀ t ∈ l, t ≠ i → f t = f' t) →
      (l.map f).sum = (l.map f').sum + d := by
  intro l
  induction l with
  | nil => intro _ h; cases h
  | cons a l ih =>
    intro hnd hmem heq hrest
    have hnd' : l.Nodup := (List.nodup_cons.mp hnd).2
    have hna : a ∉ l := (List.nodup_cons.mp hnd).1
    simp only [List.map_cons, List.sum_cons]
    rcases List.mem_cons.mp hmem with rfl | hmem'
    · have hothers : (l.map f).sum = (l.map f').sum := by
        have : ∀ t ∈ l, f t = f' t := fun t ht =>
          hrest t (List.mem_cons_of_mem _ ht) (fun he => hna (he ▸ ht))
        clear ih hrest hmem hnd hnd' hna
        induction l with
        | nil => rfl
        | cons b l ihl =>
          simp only [List.map_cons, List.sum_cons]
          rw [this b (by simp), ihl (fun t ht => this t (List.mem_cons_of_mem _ ht))]
      rw [heq, hothers]
      exact add_right_comm _ _ _
    · have hai : a ≠ i := fun he => hna (he ▸ hmem')
      rw [hrest a (by simp) hai, ih hnd' hmem' heq
        (fun t ht hti => hrest t (List.mem_cons_of_mem _ ht) hti)]
      exact (add_assoc _ _ _).symm

/-- Summing the full per-thread lists over `range ws.length` gives the
flattened multiset. -/
theorem sum_map_range_coe :
    ∀ (ws : List (List Nat)),
      ((List.range ws.length).map (fun t => ((ws.getD t [] : List Nat) : Multiset Nat))).sum =
        (ws.flatten : Multiset Nat) := by
  intro ws
  induction ws with
  | nil => rfl
  | cons a ws ih =>
    simp only [List.length_cons, List.range_succ_eq_map, List.map_cons, List.map_map,
      List.sum_cons, List.flatten_cons]
    have hcomp :
        ((List.range ws.length).map
          (fun t => (((a :: ws).getD (t + 1) [] : List Nat) : Multiset Nat))).sum =
        ((List.range ws.length).map (fun t => ((ws.getD t [] : List Nat) : Multiset Nat))).sum := by
      rfl
    rw [show ((fun t => (((a :: ws).getD t [] : List Nat) : Multiset Nat)) ∘ (· + 1)) =
        (fun t => ((ws.getD t [] : List Nat) : Multiset Nat)) from rfl]
    rw [ih]
    rfl

/-- Invariant of the running-argmax fold. -/
theorem foldArgmax_inv (read : Nat → Nat) :
    ∀ (l : List Nat) (p : Nat × Nat) (q : Nat × Nat),
      q = l.foldl (fun p' t => if p'.2 < read t then (t, read t) else p') p →
      (p = (0, 0) ∨ read p.1 = p.2) →
      (q = (0, 0) ∨ read q.1 = q.2) ∧ (q.1 = p.1 ∨ q.1 ∈ l) ∧
        p.2 ≤ q.2 ∧ ∀ t ∈ l, read t ≤ q.2 := by
  intro l
  induction l with
  | nil =>
    intro p q hq hp
    subst hq
    exact ⟨hp, Or.inl rfl, Nat.le_refl _, by simp⟩
  | cons a l ih =>
    intro p q hq hp
    by_cases hlt : p.2 < read a
    · rw [List.foldl_cons, if_pos hlt] at hq
      obtain ⟨q1, q2, q3, q4⟩ := ih (a, read a) q hq (Or.inr rfl)
      refine ⟨q1, ?_, ?_, ?_⟩
      · rcases q2 with h | h
        · exact Or.inr (by simp [h])
        · exact Or.inr (List.mem_cons_of_mem _ h)
      · exact le_trans (Nat.le_of_lt hlt) q3
      · intro t ht
        rcases List.mem_cons.mp ht with rfl | ht'
        · exact q3
        · exact q4 t ht'
    · rw [List.foldl_cons, if_neg hlt] at hq
      obtain ⟨q1, q2, q3, q4⟩ := ih p q hq hp
      refine ⟨q1, ?_, q3, ?_⟩
      · rcases q2 with h | h
        · exact Or.inl h
        · exact Or.inr (List.mem_cons_of_mem _ h)
      · intro t ht
        rcases List.mem_cons.mp ht with rfl | ht'
        · exact le_trans (Nat.le_of_not_lt hlt) q3
        · exact q4 t ht'

/-- The argmax scan of `LogLatency` returns a thread below `T`, the
value actually stored at that thread's index, and an upper bound of all
scanned values. -/
theorem selectMax_spec (ws : List (List Nat)) (g : Nat) (T : Nat) (idxs : List Int)
    (hT1 : 1 ≤ T) :
    (selectMax ws g T idxs).1 < T ∧
      readLat ws g (selectMax ws g T idxs).1 (idxs.getD (selectMax ws g T idxs).1 0) =
        (selectMax ws g T idxs).2 ∧
      ∀ t, t < T → readLat ws g t (idxs.getD t 0) ≤ (selectMax ws g T idxs).2 := by
  obtain ⟨q1, q2, q3, q4⟩ :=
    foldArgmax_inv (fun t => readLat ws g t (idxs.getD t 0)) (List.range T) (0, 0)
      (selectMax ws g T idxs) rfl (Or.inl rfl)
  have hbound : ∀ t, t < T → readLat ws g t (idxs.getD t 0) ≤ (selectMax ws g T idxs).2 :=
    fun t ht => q4 t (List.mem_range.mpr ht)
  have htgt : (selectMax ws g T idxs).1 < T := by
    rcases q2 with h | h
    · rcases q1 with h0 | _
      · rw [h0]
        exact hT1
      · rw [h]
        exact hT1
    · exact List.mem_range.mp h
  refine ⟨htgt, ?_, hbound⟩
  rcases q1 with h0 | h
  · have h02 : (selectMax ws g T idxs).2 = 0 := by rw [h0]
    have h01 : (selectMax ws g T idxs).1 = 0 := by rw [h0]
    have hr0 : readLat ws g 0 (idxs.getD 0 0) ≤ 0 := h02 ▸ hbound 0 hT1
    rw [h01, h02]
    omega
  · exact h

/-- The part of worker `t`'s latency array not yet consumed by the
descending walk, when the walk has removed `r.getD t 0` entries from
its top. -/
def remAt (ws : List (List Nat)) (r : List Nat) (t : Nat) : List Nat :=
  (ws.getD t []).take ((ws.getD t []).length - r.getD t 0)

/-- The multiset of all not-yet-consumed latencies. -/
def remMS (ws : List (List Nat)) (r : List Nat) (T : Nat) : Multiset Nat :=
  ((List.range T).map (fun t => ((remAt ws r t : List Nat) : Multiset Nat))).sum

/-- Invariant of the descending-count loop after `k` removals: the
index list points one below each worker's removed suffix, and the
remaining latencies are exactly the `m.length - k` smallest of the
merged sorted order `m`. -/
def LoopInv (ws : List (List Nat)) (m : List Nat) (T k : Nat)
    (idxs : List Int) (r : List Nat) : Prop :=
  r.length = T ∧ idxs.length = T ∧ r.sum = k ∧
    (∀ t, t < T →
      idxs.getD t 0 = ((ws.getD t []).length : Int) - 1 - (r.getD t 0 : Int)) ∧
    remMS ws r T = ((m.take (m.length - k) : List Nat) : Multiset Nat)

/-- Under the invariant every scanned value is the supremum of the
corresponding worker's remaining entries (in particular the read is in
bounds). -/
theorem readLat_remAt (ws : List (List Nat)) (g : Nat) (m : List Nat) (T k : Nat)
    (idxs : List Int) (r : List Nat) (t : Nat)
    (hsort : ∀ a ∈ ws, a.Sorted (· ≤ ·))
    (hT : T = ws.length)
    (hlen : ∀ a ∈ ws, m.length / 10 + 1 ≤ a.length)
    (hk10 : k ≤ m.length / 10)
    (hinv : LoopInv ws m T k idxs r)
    (ht : t < T) :
    readLat ws g t (idxs.getD t 0) =
        (ws.getD t []).getD ((ws.getD t []).length - 1 - r.getD t 0) 0 ∧
      ((remAt ws r t : List Nat) : Multiset Nat).sup =
        (ws.getD t []).getD ((ws.getD t []).length - 1 - r.getD t 0) 0 := by
  obtain ⟨hrlen, hilen, hrsum, hidx, -⟩ := hinv
  have hmem : ws.getD t [] ∈ ws := by
    have ht' : t < ws.length := hT ▸ ht
    rw [List.getD_eq_getElem _ _ ht']
    exact List.getElem_mem _
  have hst : (ws.getD t []).Sorted (· ≤ ·) := hsort _ hmem
  have hrt : r.getD t 0 ≤ k := hrsum ▸ getD_le_sum (by omega)
  have hlt : r.getD t 0 < (ws.getD t []).length := by
    have := hlen _ hmem
    omega
  have hidx' : idxs.getD t 0 =
      (((ws.getD t []).length - 1 - r.getD t 0 : Nat) : Int) := by
    rw [hidx t ht]
    omega
  constructor
  · rw [readLat, hidx']
    rw [if_neg (by omega)]
    rw [Int.toNat_natCast]
    rw [List.getD_eq_getElem _ _ (by omega), List.getD_eq_getElem ((ws.getD t [])) _ (by omega)]
  · have hj : (ws.getD t []).length - 1 - r.getD t 0 < (ws.getD t []).length := by omega
    have htake : remAt ws r t =
        (ws.getD t []).take (((ws.getD t []).length - 1 - r.getD t 0) + 1) := by
      unfold remAt
      congr 1
      omega
    rw [htake, sup_take_sorted hst hj]

/-- One iteration of the descending walk: under the invariant after `k`
removals, the selected maximum is the `(m.length - k)`-th smallest
merged latency, and decrementing the winner's index re-establishes the
invariant for `k + 1` removals. -/
theorem loopStep (ws : List (List Nat)) (g : Nat) (m : List Nat) (T k : Nat)
    (idxs : List Int) (r : List Nat)
    (hsort : ∀ a ∈ ws, a.Sorted (· ≤ ·))
    (hm : m.Sorted (· ≤ ·))
    (hT : T = ws.length) (hT1 : 1 ≤ T)
    (hlen : ∀ a ∈ ws, m.length / 10 + 1 ≤ a.length)
    (hk : k < m.length) (hk10 : k ≤ m.length / 10)
    (hinv : LoopInv ws m T k idxs r) :
    (selectMax ws g T idxs).2 = m.getD (m.length - k - 1) 0 ∧
      LoopInv ws m T (k + 1)
        (idxs.set (selectMax ws g T idxs).1 (idxs.getD (selectMax ws g T idxs).1 0 - 1))
        (r.set (selectMax ws g T idxs).1 (r.getD (selectMax ws g T idxs).1 0 + 1)) := by
  obtain ⟨htgt, hread, hbound⟩ := selectMax_spec ws g T idxs hT1
  have hper : ∀ t, t < T →
      readLat ws g t (idxs.getD t 0) =
          (ws.getD t []).getD ((ws.getD t []).length - 1 - r.getD t 0) 0 ∧
        ((remAt ws r t : List Nat) : Multiset Nat).sup =
          (ws.getD t []).getD ((ws.getD t []).length - 1 - r.getD t 0) 0 :=
    fun t ht => readLat_remAt ws g m T k idxs r t hsort hT hlen hk10 hinv ht
  obtain ⟨hrlen, hilen, hrsum, hidx, hrem⟩ := hinv
  have hvsup : (selectMax ws g T idxs).2 = (remMS ws r T).sup := by
    apply le_antisymm
    · have h1 : (selectMax ws g T idxs).2 =
          ((remAt ws r (selectMax ws g T idxs).1 : List Nat) : Multiset Nat).sup := by
        rw [← hread, (hper _ htgt).1, (hper _ htgt).2]
      rw [h1]
      apply Multiset.sup_le.mpr
      intro b hb
      apply Multiset.le_sup
      unfold remMS
      exact (mem_sum_map _ _).mpr ⟨_, List.mem_range.mpr htgt, hb⟩
    · apply Multiset.sup_le.mpr
      intro b hb
      unfold remMS at hb
      obtain ⟨t, htl, hbt⟩ := (mem_sum_map _ _).mp hb
      have ht : t < T := List.mem_range.mp htl
      calc b ≤ ((remAt ws r t : List Nat) : Multiset Nat).sup := Multiset.le_sup hbt
        _ = readLat ws g t (idxs.getD t 0) := by rw [(hper t ht).1, (hper t ht).2]
        _ ≤ (selectMax ws g T idxs).2 := hbound t ht
  have hvm : (selectMax ws g T idxs).2 = m.getD (m.length - k - 1) 0 := by
    rw [hvsup, hrem]
    conv_lhs => rw [show m.length - k = (m.length - k - 1) + 1 from by omega]
    rw [sup_take_sorted hm (by omega)]
  -- facts about the winning thread's array
  have hmem : ws.getD (selectMax ws g T idxs).1 [] ∈ ws := by
    have ht' : (selectMax ws g T idxs).1 < ws.length := hT ▸ htgt
    rw [List.getD_eq_getElem _ _ ht']
    exact List.getElem_mem _
  have hrt : r.getD (selectMax ws g T idxs).1 0 ≤ k := hrsum ▸ getD_le_sum (by omega)
  have hlt : r.getD (selectMax ws g T idxs).1 0 <
      (ws.getD (selectMax ws g T idxs).1 []).length := by
    have := hlen _ hmem
    omega
  have hvread : (selectMax ws g T idxs).2 =
      (ws.getD (selectMax ws g T idxs).1 []).getD
        ((ws.getD (selectMax ws g T idxs).1 []).length - 1 -
          r.getD (selectMax ws g T idxs).1 0) 0 := by
    rw [← hread, (hper _ htgt).1]
  refine ⟨hvm, ?_, ?_, ?_, ?_, ?_⟩
  · rw [List.length_set]
    exact hrlen
  · rw [List.length_set]
    exact hilen
  · rw [sum_set_succ (by omega)]
    omega
  · intro t ht
    by_cases hteq : t = (selectMax ws g T idxs).1
    · subst hteq
      rw [getD_set_self (by omega), getD_set_self (by omega), hidx _ ht]
      omega
    · rw [getD_set_ne (fun he => hteq he.symm), getD_set_ne (fun he => hteq he.symm)]
      exact hidx t ht
  · -- remaining multiset shrinks by exactly the removed maximum
    have hsplit : ((remAt ws r (selectMax ws g T idxs).1 : List Nat) : Multiset Nat) =
        ((remAt ws (r.set (selectMax ws g T idxs).1
            (r.getD (selectMax ws g T idxs).1 0 + 1)) (selectMax ws g T idxs).1 :
          List Nat) : Multiset Nat) + {(selectMax ws g T idxs).2} := by
      unfold remAt
      rw [getD_set_self (by omega)]
      have h1 : (ws.getD (selectMax ws g T idxs).1 []).length -
          r.getD (selectMax ws g T idxs).1 0 =
          ((ws.getD (selectMax ws g T idxs).1 []).length -
            (r.getD (selectMax ws g T idxs).1 0 + 1)) + 1 := by omega
      rw [h1, take_succ_eq_append (by omega)]
      have h3 : (ws.getD (selectMax ws g T idxs).1 []).getD
          ((ws.getD (selectMax ws g T idxs).1 []).length -
            (r.getD (selectMax ws g T idxs).1 0 + 1)) 0 = (selectMax ws g T idxs).2 := by
        rw [hvread]
        congr 1
        omega
      rw [h3]
      rfl
    have hstep : remMS ws r T =
        remMS ws (r.set (selectMax ws g T idxs).1
          (r.getD (selectMax ws g T idxs).1 0 + 1)) T + {(selectMax ws g T idxs).2} := by
      unfold remMS
      refine sum_map_set_diff _ _ _ (selectMax ws g T idxs).1 (List.range T)
        (List.nodup_range T) (List.mem_range.mpr htgt) hsplit ?_
      intro t _ hne
      have : remAt ws (r.set (selectMax ws g T idxs).1
          (r.getD (selectMax ws g T idxs).1 0 + 1)) t = remAt ws r t := by
        unfold remAt
        rw [getD_set_ne (fun he => hne he.symm)]
      rw [this]
    have hmr : ((m.take (m.length - k) : List Nat) : Multiset Nat) =
        ((m.take (m.length - (k + 1)) : List Nat) : Multiset Nat) +
          {(selectMax ws g T idxs).2} := by
      have h2 : m.length - k = (m.length - (k + 1)) + 1 := by omega
      rw [h2, take_succ_eq_append (by omega)]
      have h4 : m.getD (m.length - (k + 1)) 0 = (selectMax ws g T idxs).2 := by
        rw [hvm]
        congr 1
      rw [h4]
      rfl
    have := hrem
    rw [hstep, hmr] at this
    exact add_right_cancel this

/-- Full specification of the descending-count loop: starting at any
count `c ≤ N = 100q` with the invariant holding for the removals made
so far, the loop fills each percentile slot whose cut point lies at or
below `c` with the corresponding element of the merged sorted order,
and leaves the other slots (and `lat_0`) untouched. -/
theorem latLoop_spec (ws : List (List Nat)) (g : Nat) (m : List Nat) (T q : Nat)
    (hsort : ∀ a ∈ ws, a.Sorted (· ≤ ·))
    (hm : m.Sorted (· ≤ ·))
    (hT : T = ws.length) (hT1 : 1 ≤ T)
    (hlen : ∀ a ∈ ws, m.length / 10 + 1 ≤ a.length)
    (hq : m.length = 100 * q) (hq1 : 1 ≤ q) :
    ∀ (c : Nat) (st : List Int × LatResult) (r : List Nat),
      c ≤ 100 * q →
      LoopInv ws m T (100 * q - c) st.1 r →
      latLoop ws g T (100 * q) c st =
        { l0 := st.2.l0,
          l90 := if 90 * q ≤ c then m.getD (90 * q - 1) 0 else st.2.l90,
          l95 := if 95 * q ≤ c then m.getD (95 * q - 1) 0 else st.2.l95,
          l99 := if 99 * q ≤ c then m.getD (99 * q - 1) 0 else st.2.l99,
          l100 := if 100 * q ≤ c then m.getD (100 * q - 1) 0 else st.2.l100 } := by
  intro c
  induction c with
  | zero =>
    intro st r hc hinv
    unfold latLoop
    rw [if_neg (by omega)]
    rw [if_neg (by omega : ¬(90 * q ≤ 0)), if_neg (by omega : ¬(95 * q ≤ 0)),
      if_neg (by omega : ¬(99 * q ≤ 0)), if_neg (by omega : ¬(100 * q ≤ 0))]
  | succ c ih =>
    intro st r hc hinv
    unfold latLoop
    by_cases hg : 90 * q ≤ c + 1
    · rw [if_pos (by omega)]
      obtain ⟨hv, hinv'⟩ := loopStep ws g m T (100 * q - (c + 1)) st.1 r hsort hm hT hT1
        hlen (by omega) (by rw [hq]; omega) hinv
      have hbody1 : (latBody ws g T (100 * q) (c + 1) st).1 =
          st.1.set (selectMax ws g T st.1).1 (st.1.getD (selectMax ws g T st.1).1 0 - 1) := rfl
      have hkk : (100 * q - (c + 1)) + 1 = 100 * q - c := by omega
      rw [hkk] at hinv'
      have hIH := ih (latBody ws g T (100 * q) (c + 1) st)
        (r.set (selectMax ws g T st.1).1 (r.getD (selectMax ws g T st.1).1 0 + 1))
        (by omega) (by rw [hbody1]; exact hinv')
      rw [hIH]
      have hidxc : m.length - (100 * q - (c + 1)) - 1 = c := by omega
      have hv' : (selectMax ws g T st.1).2 = m.getD c 0 := by
        rw [hv, hidxc]
      have hbody2 : (latBody ws g T (100 * q) (c + 1) st).2 =
          (if c + 1 = 100 * q then { st.2 with l100 := m.getD c 0 }
           else if c + 1 = 99 * q then { st.2 with l99 := m.getD c 0 }
           else if c + 1 = 95 * q then { st.2 with l95 := m.getD c 0 }
           else if c + 1 = 90 * q then { st.2 with l90 := m.getD c 0 }
           else st.2) := by
        have e99 : 99 * (100 * q) / 100 = 99 * q := by omega
        have e95 : 95 * (100 * q) / 100 = 95 * q := by omega
        have e90 : 90 * (100 * q) / 100 = 90 * q := by omega
        show (if c + 1 = 100 * q then { st.2 with l100 := (selectMax ws g T st.1).2 }
          else if c + 1 = 99 * (100 * q) / 100 then { st.2 with l99 := (selectMax ws g T st.1).2 }
          else if c + 1 = 95 * (100 * q) / 100 then { st.2 with l95 := (selectMax ws g T st.1).2 }
          else if c + 1 = 90 * (100 * q) / 100 then { st.2 with l90 := (selectMax ws g T st.1).2 }
          else st.2) = _
        rw [e99, e95, e90, hv']
      rw [hbody2]
      simp only [LatResult.mk.injEq, apply_ite LatResult.l0, apply_ite LatResult.l90,
        apply_ite LatResult.l95, apply_ite LatResult.l99, apply_ite LatResult.l100]
      refine ⟨?_, ?_, ?_, ?_, ?_⟩ <;>
        · split_ifs <;> first | rfl | omega | (congr <;> omega)
    · rw [if_neg (by omega)]
      rw [if_neg (by omega : ¬(90 * q ≤ c + 1)), if_neg (by omega : ¬(95 * q ≤ c + 1)),
        if_neg (by omega : ¬(99 * q ≤ c + 1)), if_neg (by omega : ¬(100 * q ≤ c + 1))]

/-- Invariant of the running-minimum fold. -/
theorem foldMin_inv (read : Nat → Nat) :
    ∀ (l : List Nat) (p : Nat) (z : Nat),
      z = l.foldl (fun acc t => if read t < acc then read t else acc) p →
      (z = p ∨ ∃ t ∈ l, z = read t) ∧ z ≤ p ∧ ∀ t ∈ l, z ≤ read t := by
  intro l
  induction l with
  | nil =>
    intro p z hz
    subst hz
    exact ⟨Or.inl rfl, Nat.le_refl _, by simp⟩
  | cons a l ih =>
    intro p z hz
    by_cases hlt : read a < p
    · rw [List.foldl_cons, if_pos hlt] at hz
      obtain ⟨z1, z2, z3⟩ := ih (read a) z hz
      refine ⟨?_, le_trans z2 (Nat.le_of_lt hlt), ?_⟩
      · rcases z1 with h | ⟨t, ht, h⟩
        · exact Or.inr ⟨a, by simp, h⟩
        · exact Or.inr ⟨t, List.mem_cons_of_mem _ ht, h⟩
      · intro t ht
        rcases List.mem_cons.mp ht with rfl | ht'
        · exact z2
        · exact z3 t ht'
    · rw [List.foldl_cons, if_neg hlt] at hz
      obtain ⟨z1, z2, z3⟩ := ih p z hz
      refine ⟨?_, z2, ?_⟩
      · rcases z1 with h | ⟨t, ht, h⟩
        · exact Or.inl h
        · exact Or.inr ⟨t, List.mem_cons_of_mem _ ht, h⟩
      · intro t ht
        rcases List.mem_cons.mp ht with rfl | ht'
        · exact le_trans z2 (Nat.le_of_not_lt hlt)
        · exact z3 t ht'

/-- The `lat_0` scan computes the smallest element of the merged
sorted order. -/
theorem latMin_eq (ws : List (List Nat)) (g : Nat) (T : Nat) (m : List Nat)
    (hT : T = ws.length) (hT1 : 1 ≤ T)
    (hsort : ∀ a ∈ ws, a.Sorted (· ≤ ·))
    (hne : ∀ a ∈ ws, a ≠ [])
    (hval : ∀ x ∈ ws.flatten, x < 2 ^ 64)
    (hm : m.Sorted (· ≤ ·)) (hperm : m.Perm ws.flatten) (hmne : m ≠ []) :
    latMin ws g T = m.getD 0 0 := by
  have hhead : ∀ (l : List Nat) (d : Nat), l ≠ [] → l.getD 0 d ∈ l := by
    intro l d hl
    cases l with
    | nil => exact absurd rfl hl
    | cons a l => exact List.mem_cons_self _ _
  obtain ⟨z1, z2, z3⟩ := foldMin_inv (fun t => (ws.getD t []).getD 0 g) (List.range T)
    (2 ^ 64 - 1) (latMin ws g T) rfl
  have hmem_ws : ∀ t, t < T → ws.getD t [] ∈ ws := by
    intro t ht
    have ht' : t < ws.length := hT ▸ ht
    rw [List.getD_eq_getElem _ _ ht']
    exact List.getElem_mem _
  apply le_antisymm
  · -- the fold result is bounded by the worker head that owns m's head
    have hm0 : m.getD 0 0 ∈ ws.flatten := hperm.mem_iff.mp (hhead m 0 hmne)
    obtain ⟨a, ha, hma⟩ := List.mem_flatten.mp hm0
    obtain ⟨t, ht', hat⟩ := List.mem_iff_getElem.mp ha
    have htT : t < T := by omega
    have hgt : ws.getD t [] = a := by
      rw [List.getD_eq_getElem _ _ ht', hat]
    calc latMin ws g T ≤ (ws.getD t []).getD 0 g := z3 t (List.mem_range.mpr htT)
      _ ≤ m.getD 0 0 := by
          rw [hgt]
          exact sorted_head_le (hsort a ha) hma
  · -- m's head is a lower bound of the fold result
    rcases z1 with h | ⟨t, ht, h⟩
    · rw [h]
      have : m.getD 0 0 < 2 ^ 64 :=
        hval _ (hperm.mem_iff.mp (hhead m 0 hmne))
      omega
    · have htT : t < T := List.mem_range.mp ht
      have hanil : ws.getD t [] ≠ [] := hne _ (hmem_ws t htT)
      have hr : (ws.getD t []).getD 0 g ∈ ws.flatten :=
        List.mem_flatten.mpr ⟨ws.getD t [], hmem_ws t htT, hhead _ g hanil⟩
      rw [h]
      exact sorted_head_le hm (hperm.mem_iff.mpr hr)

/-- C3 (amended): in latency mode, provided the total operation count
`N` is a positive multiple of 100 (so the cut points `0.90N`, `0.95N`,
`0.99N` are integers the descending loop actually visits) and every
worker holds at least `N/10 + 1` latencies (so no worker's index can
run off the bottom of its array during the walk), the five reported
values equal those obtained by sorting the concatenation of all
workers' latencies and indexing: MIN is the globally smallest latency,
MAX the globally largest, and the 90%/95%/99% values are the elements
of rank `⌊0.90N⌋`, `⌊0.95N⌋`, `⌊0.99N⌋` counting from the smallest. -/
theorem C3_latency_percentiles_amended
    (ws : List (List Nat)) (g : Nat) (u : LatResult) (T N : Nat) (m : List Nat)
    (hT : T = ws.length) (hT1 : 1 ≤ T)
    (hsort : ∀ a ∈ ws, a.Sorted (· ≤ ·))
    (hlen : ∀ a ∈ ws, N / 10 + 1 ≤ a.length)
    (hval : ∀ x ∈ ws.flatten, x < 2 ^ 64)
    (hN : N = (ws.map List.length).sum)
    (hdvd : 100 ∣ N) (hNpos : 0 < N)
    (hm : m.Sorted (· ≤ ·)) (hperm : m.Perm ws.flatten) :
    LogLatency ws g u T N =
      { l0 := m.getD 0 0,
        l90 := m.getD (90 * N / 100 - 1) 0,
        l95 := m.getD (95 * N / 100 - 1) 0,
        l99 := m.getD (99 * N / 100 - 1) 0,
        l100 := m.getD (N - 1) 0 } := by
  subst hT
  obtain ⟨q, hq⟩ := hdvd
  subst hq
  have hq1 : 1 ≤ q := by omega
  have hNm : m.length = 100 * q := by
    rw [hperm.length_eq, List.length_flatten]
    omega
  have hlen' : ∀ a ∈ ws, m.length / 10 + 1 ≤ a.length := by
    intro a ha
    have := hlen a ha
    omega
  have hne : ∀ a ∈ ws, a ≠ [] := by
    intro a ha
    have hla := hlen a ha
    intro hnil
    rw [hnil] at hla
    simp at hla
  have hmne : m ≠ [] := by
    intro hnil
    rw [hnil] at hNm
    simp at hNm
    omega
  have hinv0 : LoopInv ws m ws.length 0
      ((List.range ws.length).map (fun t => ((ws.getD t []).length : Int) - 1))
      (List.replicate ws.length 0) := by
    refine ⟨List.length_replicate _ _, ?_, by simp, ?_, ?_⟩
    · rw [List.length_map, List.length_range]
    · intro t ht
      rw [getD_map_range _ _ ht, getD_replicate ht]
      simp
    · unfold remMS
      have hpoint : ∀ t ∈ List.range ws.length,
          ((remAt ws (List.replicate ws.length 0) t : List Nat) : Multiset Nat) =
            ((ws.getD t [] : List Nat) : Multiset Nat) := by
        intro t ht
        unfold remAt
        rw [getD_replicate (List.mem_range.mp ht), Nat.sub_zero, List.take_length]
      rw [List.map_congr_left hpoint, sum_map_range_coe, Nat.sub_zero, List.take_length]
      exact (Multiset.coe_eq_coe.mpr hperm).symm
  have hspec := latLoop_spec ws g m ws.length q hsort hm rfl hT1 hlen' hNm hq1
    (100 * q)
    ((List.range ws.length).map (fun t => ((ws.getD t []).length : Int) - 1),
      { u with l0 := latMin ws g ws.length })
    (List.replicate ws.length 0)
    (Nat.le_refl _)
    (by rw [show 100 * q - 100 * q = 0 from by omega]; exact hinv0)
  calc LogLatency ws g u ws.length (100 * q)
      = latLoop ws g ws.length (100 * q) (100 * q)
          ((List.range ws.length).map (fun t => ((ws.getD t []).length : Int) - 1),
            { u with l0 := latMin ws g ws.length }) := rfl
    _ = _ := by
        rw [hspec]
        have e90 : 90 * (100 * q) / 100 = 90 * q := by omega
        have e95 : 95 * (100 * q) / 100 = 95 * q := by omega
        have e99 : 99 * (100 * q) / 100 = 99 * q := by omega
        rw [if_pos (by omega : 90 * q ≤ 100 * q), if_pos (by omega : 95 * q ≤ 100 * q),
          if_pos (by omega : 99 * q ≤ 100 * q), if_pos (Nat.le_refl (100 * q)),
          e90, e95, e99]
        have hl0 : latMin ws g ws.length = m.getD 0 0 :=
          latMin_eq ws g ws.length m rfl hT1 hsort hne hval hm hperm hmne
        simp [hl0]

/-- Witness for the amended C3 on one worker with the 100 sorted
latencies `1..100`. -/
theorem C3_latency_percentiles_amended_witness :
    (100 : Nat) ∣ 100 ∧
      LogLatency [(List.range 100).map (· + 1)] 0 ⟨0, 0, 0, 0, 0⟩ 1 100 =
        { l0 := ((List.range 100).map (· + 1)).getD 0 0,
          l90 := ((List.range 100).map (· + 1)).getD (90 * 100 / 100 - 1) 0,
          l95 := ((List.range 100).map (· + 1)).getD (95 * 100 / 100 - 1) 0,
          l99 := ((List.range 100).map (· + 1)).getD (99 * 100 / 100 - 1) 0,
          l100 := ((List.range 100).map (· + 1)).getD (100 - 1) 0 } :=
  ⟨by decide,
    C3_latency_percentiles_amended [(List.range 100).map (· + 1)] 0 ⟨0, 0, 0, 0, 0⟩ 1 100
      ((List.range 100).map (· + 1)) rfl (by decide) (by decide) (by decide) (by decide)
      (by decide) (by decide) (by decide) (by decide) (by simp)⟩
